import Mathlib

/-!
Shallow embedding of the dagster-dask executor
(python_modules/libraries/dagster-dask/dagster_dask/executor.py).

Python dicts that the executor builds by insertion are modelled as
association lists with dict semantics: inserting an existing key replaces
the stored value in place, inserting a fresh key appends.  Future handles
are modelled by their creation index (0, 1, 2, ...), matching the order in
which client.submit is called.  The external collaborators (the dask
client, json.loads, the remote GraphQL invocation) are parameters of the
embedding: json.loads is an opaque decoder, the remote step results are an
oracle from future handles to either an event list or a raised error, and
as_completed is an arbitrary completion order over the submitted futures.
-/

/-- Values stored in the configuration dicts the executor builds
(string defaults such as the cluster name, and the integer 1 written for
threads_per_worker). -/
inductive PyVal where
  | str : String → PyVal
  | int : Int → PyVal
  deriving DecidableEq, Repr

/-- Python dict insertion on an association list: replace the value when
the key is already present, append a fresh binding otherwise. -/
def dictSet (d : List (String × α)) (k : String) (v : α) : List (String × α) :=
  if d.any (fun p => p.1 == k) then
    d.map (fun p => if p.1 == k then (k, v) else p)
  else
    d ++ [(k, v)]

/-- Python `k in d` on a dict modelled as an association list. -/
def hasKeyL (d : List (String × α)) (k : String) : Bool :=
  d.any (fun p => p.1 == k)

/-- The dict obtained by inserting a list of key/value pairs, in order,
into an empty dict (Python dict construction; later duplicates win). -/
def pyDict (pairs : List (String × α)) : List (String × α) :=
  pairs.foldl (fun d kv => dictSet d kv.1 kv.2) []

/-- Minimal JSON value universe for the payload of the resource
requirements tag. -/
inductive Json where
  | null : Json
  | bool : Bool → Json
  | num : Int → Json
  | str : String → Json
  | arr : List Json → Json
  | obj : List (String × Json) → Json

/-- DASK_RESOURCE_REQUIREMENTS_KEY from executor.py. -/
def DASK_RESOURCE_REQUIREMENTS_KEY : String := "dagster-dask/resource_requirements"

/-- get_dask_resource_requirements(tags).  `json_loads` is the opaque
seven.json.loads decoder, which either returns a decoded value or raises
(modelled as Except.error). -/
def get_dask_resource_requirements (json_loads : String → Except String Json)
    (tags : List (String × String)) : Except String Json :=
  match tags.lookup DASK_RESOURCE_REQUIREMENTS_KEY with
  | some req_str => json_loads req_str
  | none => .ok (Json.obj [])

/-- A step input carries the dependency keys it contributes
(step_input.dependency_keys). -/
structure StepInput where
  dependency_keys : List String
  deriving DecidableEq, Repr

/-- An execution step: unique key, declared inputs, tag dict. -/
structure Step where
  key : String
  step_inputs : List StepInput
  tags : List (String × String)
  deriving DecidableEq, Repr

/-- The union (with multiplicity, in iteration order) of a step's
dependency keys, exactly as the nested loop in execute collects them. -/
def Step.dep_keys (s : Step) : List String :=
  (s.step_inputs.map StepInput.dependency_keys).flatten

/-- All step keys of a leveled plan, in submission order. -/
def planKeys (plan : List (List Step)) : List String :=
  (plan.map (fun lvl => lvl.map Step.key)).flatten

/-- A leveled plan is valid (relative to the keys of prior levels) when
every step of every level only references dependency keys of strictly
earlier levels. -/
def validLeveledFrom (prior : List String) : List (List Step) → Bool
  | [] => true
  | lvl :: rest =>
    lvl.all (fun s => s.dep_keys.all (fun k => prior.contains k)) &&
      validLeveledFrom (prior ++ lvl.map Step.key) rest

/-- Validity of a whole leveled plan. -/
def validLeveled (plan : List (List Step)) : Bool :=
  validLeveledFrom [] plan

/-- Errors the embedded execute can raise: check.invariant failures,
an attribute error on a missing storage dict, a KeyError from the
dependency lookup, the ValueError for an unknown cluster kind, a
json-decoding failure of a resource tag, and a remote step failure
surfaced by future.result(). -/
inductive ExecError where
  | checkFailed : String → ExecError
  | attributeError : String → ExecError
  | keyError : String → ExecError
  | valueError : String → ExecError
  | jsonError : String → ExecError
  | remoteFailure : String → ExecError
  deriving DecidableEq, Repr

/-- Observable effects of execute, recorded in program order: cluster
provisioning with the kwargs built by build_dict, entering the
dask.distributed.Client context, each client.submit call, and leaving the
client context. -/
inductive Effect where
  | provision : String → List (String × PyVal) → Effect
  | acquireClient : Effect
  | submitted : String → Effect
  | releaseClient : Effect
  deriving DecidableEq, Repr

/-- An event produced by a step (DagsterEvent), kept opaque. -/
abbrev Event := String

/-- State of the submission loop: the execution_futures list and the
execution_futures_dict mapping step key to future handle. -/
structure SubmitState where
  execution_futures : List Nat
  execution_futures_dict : List (String × Nat)
  deriving DecidableEq, Repr

/-- The dependency-collection loop: for each dependency key, look up its
future in execution_futures_dict; a missing key raises KeyError at that
key. -/
def collectDependencies (d : List (String × Nat)) : List String → Except ExecError (List Nat)
  | [] => .ok []
  | k :: rest =>
    match d.lookup k with
    | none => .error (.keyError k)
    | some f =>
      match collectDependencies d rest with
      | .error e => .error e
      | .ok fs => .ok (f :: fs)

/-- Submission of one step: collect the dependency futures, extract the
resource requirements from the step tags (this may raise on malformed
JSON), then create the future and record it in both the list and the
dict. -/
def submitOne (json_loads : String → Except String Json) (st : SubmitState) (step : Step) :
    Except ExecError SubmitState :=
  match collectDependencies st.execution_futures_dict step.dep_keys with
  | .error e => .error e
  | .ok _dependencies =>
    match get_dask_resource_requirements json_loads step.tags with
    | .error e => .error (.jsonError e)
    | .ok _resources =>
      let future := st.execution_futures.length
      .ok { execution_futures := st.execution_futures ++ [future],
            execution_futures_dict := dictSet st.execution_futures_dict step.key future }

/-- Submission of the steps of one level, in order, returning the trace
of submit effects together with the final state or the first error. -/
def submitSteps (json_loads : String → Except String Json) :
    List Step → SubmitState → List Effect × Except ExecError SubmitState
  | [], st => ([], .ok st)
  | s :: rest, st =>
    match submitOne json_loads st s with
    | .error e => ([], .error e)
    | .ok st' =>
      let r := submitSteps json_loads rest st'
      (Effect.submitted s.key :: r.1, r.2)

/-- Submission of all levels in plan order. -/
def submitLevels (json_loads : String → Except String Json) :
    List (List Step) → SubmitState → List Effect × Except ExecError SubmitState
  | [], st => ([], .ok st)
  | lvl :: rest, st =>
    let r := submitSteps json_loads lvl st
    match r.2 with
    | .error e => (r.1, .error e)
    | .ok st' =>
      let r2 := submitLevels json_loads rest st'
      (r.1 ++ r2.1, r2.2)

/-- The aggregation loop: for future in as_completed(execution_futures),
yield the events of future.result(); a failed future re-raises inside the
loop, ending the stream with the events yielded so far. -/
def drainFutures (order : List Nat) (result : Nat → Except String (List Event)) :
    List Event × Option ExecError :=
  match order with
  | [] => ([], none)
  | f :: rest =>
    match result f with
    | .error e => ([], some (.remoteFailure e))
    | .ok evs =>
      let r := drainFutures rest result
      (evs ++ r.1, r.2)

/-- The DaskExecutor configuration state. -/
structure DaskExecutor where
  cluster_type : String
  cluster_configuration : List (String × PyVal)
  deriving DecidableEq, Repr

/-- DaskExecutor.__init__: check.opt_str_param defaults a missing
cluster_type to "local", and check.opt_dict_param defaults a missing
cluster_configuration to the empty dict. -/
def DaskExecutor.construct (cluster_type : Option String)
    (cluster_configuration : Option (List (String × PyVal))) : DaskExecutor :=
  { cluster_type := cluster_type.getD "local",
    cluster_configuration := cluster_configuration.getD [] }

/-- DaskExecutor.build_dict: start from the backend base defaults (the
cluster display name for yarn/kube/pbs), overlay the user-supplied
cluster_configuration, then, for a local cluster whose merged options
carry no scheduler address, set threads_per_worker to 1. -/
def DaskExecutor.build_dict (self : DaskExecutor) (pipeline_name : String) :
    List (String × PyVal) :=
  let dask_cfg : List (String × PyVal) :=
    if ["yarn", "kube", "pbs"].contains self.cluster_type then
      [("name", PyVal.str pipeline_name)]
    else
      []
  let dask_cfg := self.cluster_configuration.foldl (fun d kv => dictSet d kv.1 kv.2) dask_cfg
  if self.cluster_type == "local" && !(hasKeyL dask_cfg "address") then
    dictSet dask_cfg "threads_per_worker" (PyVal.int 1)
  else
    dask_cfg

/-- The recognized cluster kinds of the provisioning dispatch. -/
def clusterKinds : List String := ["local", "yarn", "ssh", "pbs", "kube"]

/-- The parts of the pipeline context execute reads before provisioning:
run_config.get("storage") (a dict abstracted to its key list, or None),
instance.is_persistent, system_storage_def.is_persistent and the pipeline
name.  The remaining context reads (run config payload, repository
pointer, mode, run id) only build the opaque invocation payload and
cannot fail, so they are elided. -/
structure ExecContext where
  run_config_storage : Option (List String)
  is_persistent : Bool
  system_storage_is_persistent : Bool
  pipeline_name : String

/-- The body of the with dask.distributed.Client(cluster) block: submit
every level, then drain the futures in completion order; the client is
released on every exit of the block. -/
def DaskExecutor.executeBody (self : DaskExecutor) (ctx : ExecContext)
    (json_loads : String → Except String Json) (execution_plan : List (List Step))
    (order : List Nat) (result : Nat → Except String (List Event)) :
    List Effect × List Event × Option ExecError :=
  let cfg := self.build_dict ctx.pipeline_name
  let sub := submitLevels json_loads execution_plan ⟨[], []⟩
  match sub.2 with
  | .error e =>
    (Effect.provision self.cluster_type cfg :: Effect.acquireClient ::
        (sub.1 ++ [Effect.releaseClient]), [], some e)
  | .ok _st =>
    let dr := drainFutures order result
    (Effect.provision self.cluster_type cfg :: Effect.acquireClient ::
        (sub.1 ++ [Effect.releaseClient]), dr.1, dr.2)

/-- DaskExecutor.execute: the storage / persistence invariant checks, the
cluster-kind dispatch (an unrecognized kind raises ValueError before any
provisioning), then provisioning, submission and aggregation inside the
client context.  Returns the effect trace, the yielded events and the
error that ended execution, if any. -/
def DaskExecutor.execute (self : DaskExecutor) (ctx : ExecContext)
    (json_loads : String → Except String Json) (execution_plan : List (List Step))
    (order : List Nat) (result : Nat → Except String (List Event)) :
    List Effect × List Event × Option ExecError :=
  match ctx.run_config_storage with
  | none => ([], [], some (.attributeError "NoneType object has no attribute keys"))
  | some storage_keys =>
    if storage_keys.isEmpty then
      ([], [], some (.checkFailed "Must specify storage to use Dask execution"))
    else if !ctx.is_persistent then
      ([], [], some (.checkFailed "Dask execution requires a persistent DagsterInstance"))
    else if !ctx.system_storage_is_persistent then
      ([], [], some (.checkFailed "Cannot use in-memory storage with Dask, use filesystem, S3, or GCS"))
    else if clusterKinds.contains self.cluster_type then
      self.executeBody ctx json_loads execution_plan order result
    else
      ([], [], some (.valueError
        ("Must be providing one of the following (local, yarn, ssh, pbs, kube) not "
          ++ self.cluster_type)))

/-! ## Association-list dictionary lemmas -/

theorem string_beq_comm (a b : String) : (a == b) = (b == a) := by
  by_cases h : a = b
  · subst h; rfl
  · simp [beq_eq_false_iff_ne, h, Ne.symm h]

theorem lookup_map_replace_self {d : List (String × α)} {k : String} {v : α}
    (h : d.any (fun p => p.1 == k) = true) :
    (d.map (fun p => if p.1 == k then (k, v) else p)).lookup k = some v := by
  induction d with
  | nil => simp at h
  | cons p rest ih =>
    obtain ⟨a, b⟩ := p
    by_cases hak : a = k
    · subst hak
      simp [List.lookup_cons]
    · have hb : (a == k) = false := beq_false_of_ne hak
      have h2 : rest.any (fun p => p.1 == k) = true := by
        simp only [List.any_cons, hb, Bool.false_or] at h
        exact h
      simp [List.lookup_cons, hak, beq_false_of_ne (Ne.symm hak)]
      simpa using ih h2

theorem lookup_map_replace_ne {d : List (String × α)} {k k' : String} {v : α}
    (h : k' ≠ k) :
    (d.map (fun p => if p.1 == k then (k, v) else p)).lookup k' = d.lookup k' := by
  induction d with
  | nil => simp
  | cons p rest ih =>
    obtain ⟨a, b⟩ := p
    by_cases hak : a = k
    · subst hak
      simp [List.lookup_cons, beq_false_of_ne h]
      simpa using ih
    · by_cases h2 : k' = a
      · subst h2
        simp [List.lookup_cons, hak]
      · simp [List.lookup_cons, hak, beq_false_of_ne h2]
        simpa using ih

theorem lookup_append_self {d : List (String × α)} {k : String} {v : α}
    (h : d.any (fun p => p.1 == k) = false) :
    (d ++ [(k, v)]).lookup k = some v := by
  induction d with
  | nil => simp [List.lookup_cons]
  | cons p rest ih =>
    obtain ⟨a, b⟩ := p
    simp only [List.any_cons, Bool.or_eq_false_iff] at h
    have h1 : (k == a) = false := by rw [string_beq_comm]; exact h.1
    simp [List.lookup_cons, h1, ih h.2]

theorem lookup_append_ne {d : List (String × α)} {k k' : String} {v : α}
    (h : k' ≠ k) :
    (d ++ [(k, v)]).lookup k' = d.lookup k' := by
  induction d with
  | nil => simp [List.lookup_cons, beq_false_of_ne h]
  | cons p rest ih =>
    obtain ⟨a, b⟩ := p
    by_cases h2 : k' = a
    · subst h2
      simp [List.lookup_cons]
    · simp [List.lookup_cons, beq_false_of_ne h2, ih]

theorem lookup_dictSet_self (d : List (String × α)) (k : String) (v : α) :
    (dictSet d k v).lookup k = some v := by
  cases hA : d.any (fun p => p.1 == k) with
  | true =>
    unfold dictSet
    rw [hA, if_pos rfl]
    exact lookup_map_replace_self hA
  | false =>
    unfold dictSet
    rw [hA, if_neg Bool.false_ne_true]
    exact lookup_append_self hA

theorem lookup_dictSet_ne (d : List (String × α)) (k k' : String) (v : α)
    (h : k' ≠ k) :
    (dictSet d k v).lookup k' = d.lookup k' := by
  cases hA : d.any (fun p => p.1 == k) with
  | true =>
    unfold dictSet
    rw [hA, if_pos rfl]
    exact lookup_map_replace_ne h
  | false =>
    unfold dictSet
    rw [hA, if_neg Bool.false_ne_true]
    exact lookup_append_ne h

theorem hasKeyL_iff_lookup {d : List (String × α)} {k : String} :
    hasKeyL d k = true ↔ (d.lookup k).isSome = true := by
  induction d with
  | nil => simp [hasKeyL]
  | cons p rest ih =>
    obtain ⟨a, b⟩ := p
    by_cases h1 : a = k
    · subst h1
      simp [hasKeyL, List.lookup_cons]
    · simp [hasKeyL, List.lookup_cons, h1, beq_false_of_ne h1,
        beq_false_of_ne (Ne.symm h1), ih]

theorem hasKeyL_eq_isSome (d : List (String × α)) (k : String) :
    hasKeyL d k = (d.lookup k).isSome := by
  cases h : (d.lookup k).isSome
  · cases h2 : hasKeyL d k
    · rfl
    · exact absurd (hasKeyL_iff_lookup.mp h2) (by simp [h])
  · exact hasKeyL_iff_lookup.mpr h

theorem hasKeyL_dictSet_self (d : List (String × α)) (k : String) (v : α) :
    hasKeyL (dictSet d k v) k = true := by
  rw [hasKeyL_eq_isSome, lookup_dictSet_self]
  rfl

theorem hasKeyL_dictSet_ne (d : List (String × α)) (k k' : String) (v : α) (h : k' ≠ k) :
    hasKeyL (dictSet d k v) k' = hasKeyL d k' := by
  rw [hasKeyL_eq_isSome, hasKeyL_eq_isSome, lookup_dictSet_ne _ _ _ _ h]

theorem hasKeyL_dictSet (d : List (String × α)) (k k' : String) (v : α) :
    hasKeyL (dictSet d k v) k' = (hasKeyL d k' || (k' == k)) := by
  by_cases h : k' = k
  · subst h
    simp [hasKeyL_dictSet_self]
  · rw [hasKeyL_dictSet_ne _ _ _ _ h]
    simp [beq_false_of_ne h]

theorem hasKeyL_dictSet_of (d : List (String × α)) (k k' : String) (v : α)
    (h : hasKeyL d k' = true) : hasKeyL (dictSet d k v) k' = true := by
  rw [hasKeyL_dictSet, h]
  rfl

theorem lookup_foldl_dictSet_of_not {k : String} (cc : List (String × α)) :
    ∀ d : List (String × α), hasKeyL cc k = false →
      (cc.foldl (fun d kv => dictSet d kv.1 kv.2) d).lookup k = d.lookup k := by
  induction cc with
  | nil => intro d _; rfl
  | cons kv rest ih =>
    intro d h
    simp only [hasKeyL, List.any_cons, Bool.or_eq_false_iff] at h
    have h1 : k ≠ kv.1 := fun he => by simp [he] at h
    rw [List.foldl_cons, ih (dictSet d kv.1 kv.2) h.2, lookup_dictSet_ne _ _ _ _ h1]

theorem lookup_foldl_dictSet_congr {k : String} (cc : List (String × α)) :
    ∀ d d' : List (String × α), hasKeyL cc k = true →
      (cc.foldl (fun d kv => dictSet d kv.1 kv.2) d).lookup k
        = (cc.foldl (fun d kv => dictSet d kv.1 kv.2) d').lookup k := by
  induction cc with
  | nil => intro d d' h; simp [hasKeyL] at h
  | cons kv rest ih =>
    intro d d' h
    rw [List.foldl_cons, List.foldl_cons]
    by_cases h2 : hasKeyL rest k = true
    · exact ih _ _ h2
    · have h2' : hasKeyL rest k = false := by
        cases hx : hasKeyL rest k
        · rfl
        · exact absurd hx h2
      have hkv : kv.1 = k := by
        simp only [hasKeyL, List.any_cons] at h
        rcases Bool.or_eq_true_iff.mp h with hl | hr
        · exact (beq_iff_eq).mp hl
        · exact absurd hr (by simp [show (rest.any fun p => p.1 == k) = false from h2'])
      rw [lookup_foldl_dictSet_of_not rest _ h2', lookup_foldl_dictSet_of_not rest _ h2']
      subst hkv
      rw [lookup_dictSet_self, lookup_dictSet_self]

theorem hasKeyL_foldl_dictSet {k : String} (cc : List (String × α)) :
    ∀ d : List (String × α),
      hasKeyL (cc.foldl (fun d kv => dictSet d kv.1 kv.2) d) k
        = (hasKeyL d k || hasKeyL cc k) := by
  induction cc with
  | nil => intro d; simp [hasKeyL]
  | cons kv rest ih =>
    intro d
    rw [List.foldl_cons, ih, hasKeyL_dictSet, string_beq_comm k kv.1]
    simp [hasKeyL, Bool.or_assoc]

/-! ## build_dict lemmas and claims about configuration merging -/

theorem hasKeyL_pyDict (cc : List (String × α)) (k : String) :
    hasKeyL (pyDict cc) k = hasKeyL cc k := by
  rw [show pyDict cc = cc.foldl (fun d kv => dictSet d kv.1 kv.2) [] from rfl,
    hasKeyL_foldl_dictSet]
  simp [hasKeyL]

theorem build_dict_local (cc : List (String × PyVal)) (pn : String) :
    DaskExecutor.build_dict ⟨"local", cc⟩ pn =
      if hasKeyL (pyDict cc) "address" then pyDict cc
      else dictSet (pyDict cc) "threads_per_worker" (PyVal.int 1) := by
  have hc : (["yarn", "kube", "pbs"] : List String).contains "local" = false := rfl
  cases hA : hasKeyL (pyDict cc) "address" with
  | true =>
    simp only [DaskExecutor.build_dict, hc, Bool.false_eq_true, if_false]
    rw [show cc.foldl (fun d kv => dictSet d kv.1 kv.2) [] = pyDict cc from rfl, hA]
    simp
  | false =>
    simp only [DaskExecutor.build_dict, hc, Bool.false_eq_true, if_false]
    rw [show cc.foldl (fun d kv => dictSet d kv.1 kv.2) [] = pyDict cc from rfl, hA]
    simp

/-- C3 counterexample: for the local cluster kind with no address, a
user-supplied threads_per_worker value of 4 is replaced by the computed
default 1 in the mapping returned by build_dict, so a user-supplied value
is not always preserved. -/
theorem dask_user_config_override_counterexample :
    DaskExecutor.build_dict ⟨"local", [("threads_per_worker", PyVal.int 4)]⟩ "p"
        = [("threads_per_worker", PyVal.int 1)] ∧
    (DaskExecutor.build_dict ⟨"local", [("threads_per_worker", PyVal.int 4)]⟩ "p").lookup
        "threads_per_worker" ≠ some (PyVal.int 4) := by
  decide

/-- C3 (amended): for every cluster kind, a user-supplied key overrides
the computed base default for that key and is returned unchanged by
build_dict, except for the key threads_per_worker on a local cluster
whose merged options carry no address, which build_dict forcibly resets
to 1. -/
theorem dask_user_config_override_amended (self : DaskExecutor) (pn k : String)
    (hk : hasKeyL self.cluster_configuration k = true)
    (hx : ¬(self.cluster_type = "local" ∧ k = "threads_per_worker"
            ∧ hasKeyL (pyDict self.cluster_configuration) "address" = false)) :
    (self.build_dict pn).lookup k = (pyDict self.cluster_configuration).lookup k := by
  obtain ⟨ct, cc⟩ := self
  simp only at hk hx ⊢
  simp only [DaskExecutor.build_dict]
  generalize hbase : (if (["yarn", "kube", "pbs"] : List String).contains ct
      then [("name", PyVal.str pn)] else ([] : List (String × PyVal))) = base
  have hbA : hasKeyL base "address" = false := by
    cases hcon : (["yarn", "kube", "pbs"] : List String).contains ct
    · rw [← hbase, hcon]
      rfl
    · rw [← hbase, hcon]
      rfl
  have hml : (cc.foldl (fun d kv => dictSet d kv.1 kv.2) base).lookup k
      = (pyDict cc).lookup k :=
    lookup_foldl_dictSet_congr cc base [] hk
  have haddr : hasKeyL (cc.foldl (fun d kv => dictSet d kv.1 kv.2) base) "address"
      = hasKeyL (pyDict cc) "address" := by
    rw [hasKeyL_foldl_dictSet, hbA, Bool.false_or, hasKeyL_pyDict]
  by_cases hlocal : ct = "local"
  · subst hlocal
    cases hA : hasKeyL (pyDict cc) "address" with
    | false =>
      have hk2 : k ≠ "threads_per_worker" := fun he => hx ⟨rfl, he, hA⟩
      rw [haddr, hA]
      simp only [beq_self_eq_true, Bool.not_false, Bool.and_true]
      rw [if_pos trivial, lookup_dictSet_ne _ _ _ _ hk2]
      exact hml
    | true =>
      rw [haddr, hA]
      simp only [Bool.not_true, Bool.and_false]
      rw [if_neg Bool.false_ne_true]
      exact hml
  · have hbeq : (ct == "local") = false := beq_false_of_ne hlocal
    rw [hbeq]
    simp only [Bool.false_and]
    rw [if_neg Bool.false_ne_true]
    exact hml

/-- Witness for the amended C3 at a concrete input: a yarn cluster whose
user configuration overrides the computed name default. -/
theorem dask_user_config_override_amended_witness :
    hasKeyL [("name", PyVal.str "user")] "name" = true ∧
    (DaskExecutor.build_dict ⟨"yarn", [("name", PyVal.str "user")]⟩ "p").lookup "name"
      = some (PyVal.str "user") :=
  ⟨by decide,
   by
    rw [dask_user_config_override_amended ⟨"yarn", [("name", PyVal.str "user")]⟩ "p" "name"
      (by decide) (by decide)]
    decide⟩

/-- C4: for the local cluster kind, when the merged options carry no
address key, build_dict always returns a mapping with
threads_per_worker = 1; when an address key is present, build_dict
returns the merged options untouched, so the constraint is never added. -/
theorem dask_local_threads_per_worker_rule (cc : List (String × PyVal)) (pn : String) :
    (hasKeyL (pyDict cc) "address" = false →
       (DaskExecutor.build_dict ⟨"local", cc⟩ pn).lookup "threads_per_worker"
         = some (PyVal.int 1)) ∧
    (hasKeyL (pyDict cc) "address" = true →
       DaskExecutor.build_dict ⟨"local", cc⟩ pn = pyDict cc) := by
  constructor
  · intro h
    rw [build_dict_local, h, if_neg Bool.false_ne_true, lookup_dictSet_self]
  · intro h
    rw [build_dict_local, h, if_pos rfl]

/-- Witness for C4 at concrete inputs: no address means the constraint
appears, an address means the user options come back unchanged. -/
theorem dask_local_threads_per_worker_rule_witness :
    (DaskExecutor.build_dict ⟨"local", [("timeout", PyVal.int 5)]⟩ "p").lookup
        "threads_per_worker" = some (PyVal.int 1) ∧
    DaskExecutor.build_dict ⟨"local", [("address", PyVal.str "127.0.0.1:8786")]⟩ "p"
      = pyDict [("address", PyVal.str "127.0.0.1:8786")] :=
  ⟨(dask_local_threads_per_worker_rule [("timeout", PyVal.int 5)] "p").1 (by decide),
   (dask_local_threads_per_worker_rule [("address", PyVal.str "127.0.0.1:8786")] "p").2
     (by decide)⟩

/-! ## Submission-loop lemmas and claims -/

theorem collectDependencies_ok (d : List (String × Nat)) (ks : List String)
    (h : ∀ k ∈ ks, hasKeyL d k = true) : ∃ fs, collectDependencies d ks = .ok fs := by
  induction ks with
  | nil => exact ⟨[], rfl⟩
  | cons k rest ih =>
    have h1 := hasKeyL_iff_lookup.mp (h k (List.mem_cons_self k rest))
    obtain ⟨f, hf⟩ := Option.isSome_iff_exists.mp h1
    obtain ⟨fs, hfs⟩ := ih (fun k' hk' => h k' (List.mem_cons_of_mem _ hk'))
    exact ⟨f :: fs, by simp [collectDependencies, hf, hfs]⟩

theorem submitOne_shape (json_loads : String → Except String Json) (st : SubmitState) (s : Step)
    (h : ∀ k ∈ s.dep_keys, hasKeyL st.execution_futures_dict k = true) :
    submitOne json_loads st s = .ok
        ⟨st.execution_futures ++ [st.execution_futures.length],
         dictSet st.execution_futures_dict s.key st.execution_futures.length⟩ ∨
    ∃ e, submitOne json_loads st s = .error (.jsonError e) := by
  obtain ⟨fs, hfs⟩ := collectDependencies_ok _ _ h
  cases hr : get_dask_resource_requirements json_loads s.tags with
  | error e => exact Or.inr ⟨e, by simp [submitOne, hfs, hr]⟩
  | ok j => exact Or.inl (by simp [submitOne, hfs, hr])

theorem submitOne_ok (json_loads : String → Except String Json) (st : SubmitState) (s : Step)
    (st' : SubmitState) (h : submitOne json_loads st s = .ok st') :
    st' = ⟨st.execution_futures ++ [st.execution_futures.length],
           dictSet st.execution_futures_dict s.key st.execution_futures.length⟩ := by
  unfold submitOne at h
  cases hc : collectDependencies st.execution_futures_dict s.dep_keys with
  | error e => rw [hc] at h; simp at h
  | ok fs =>
    rw [hc] at h
    cases hr : get_dask_resource_requirements json_loads s.tags with
    | error e => rw [hr] at h; simp at h
    | ok j =>
      rw [hr] at h
      simp at h
      exact h.symm

theorem dictSet_append_of_not_hasKey (d : List (String × α)) (k : String) (v : α)
    (h : hasKeyL d k = false) : dictSet d k v = d ++ [(k, v)] := by
  unfold dictSet
  rw [show (d.any fun p => p.1 == k) = hasKeyL d k from rfl, h,
    if_neg Bool.false_ne_true]

theorem submitSteps_sound (json_loads : String → Except String Json) :
    ∀ (steps : List Step) (st : SubmitState) (prior : List String),
      (∀ k ∈ prior, hasKeyL st.execution_futures_dict k = true) →
      (∀ s ∈ steps, ∀ k ∈ s.dep_keys, k ∈ prior) →
      (∀ k, (submitSteps json_loads steps st).2 ≠ .error (.keyError k)) ∧
      (∀ st', (submitSteps json_loads steps st).2 = .ok st' →
         ∀ k, k ∈ prior ∨ k ∈ steps.map Step.key →
           hasKeyL st'.execution_futures_dict k = true) ∧
      (∃ rest2, (submitSteps json_loads steps st).1 ++ rest2
          = steps.map (fun s => Effect.submitted s.key)) ∧
      (∀ st', (submitSteps json_loads steps st).2 = .ok st' →
         (submitSteps json_loads steps st).1 = steps.map (fun s => Effect.submitted s.key)) := by
  intro steps
  induction steps with
  | nil =>
    intro st prior hp _
    refine ⟨fun k => by simp [submitSteps], ?_, ⟨[], rfl⟩, fun st' _ => rfl⟩
    intro st' hok k hk
    have hst : st' = st := by simpa [submitSteps] using hok.symm
    subst hst
    rcases hk with hk | hk
    · exact hp k hk
    · simp at hk
  | cons s rest ih =>
    intro st prior hp hdeps
    have hs : ∀ k ∈ s.dep_keys, hasKeyL st.execution_futures_dict k = true :=
      fun k hk => hp k (hdeps s (List.mem_cons_self s rest) k hk)
    rcases submitOne_shape json_loads st s hs with hok | ⟨e, herr⟩
    · have hunfold : submitSteps json_loads (s :: rest) st
          = (Effect.submitted s.key ::
              (submitSteps json_loads rest
                ⟨st.execution_futures ++ [st.execution_futures.length],
                 dictSet st.execution_futures_dict s.key st.execution_futures.length⟩).1,
             (submitSteps json_loads rest
                ⟨st.execution_futures ++ [st.execution_futures.length],
                 dictSet st.execution_futures_dict s.key st.execution_futures.length⟩).2) := by
        simp [submitSteps, hok]
      have hp1 : ∀ k ∈ prior ++ [s.key],
          hasKeyL (dictSet st.execution_futures_dict s.key st.execution_futures.length) k
            = true := by
        intro k hk
        rcases List.mem_append.mp hk with hk | hk
        · exact hasKeyL_dictSet_of _ _ _ _ (hp k hk)
        · rw [List.mem_singleton.mp hk]
          exact hasKeyL_dictSet_self _ _ _
      have hdeps1 : ∀ t ∈ rest, ∀ k ∈ t.dep_keys, k ∈ prior ++ [s.key] :=
        fun t ht k hk => List.mem_append_left _ (hdeps t (List.mem_cons_of_mem _ ht) k hk)
      obtain ⟨c1, c2, ⟨r3, hr3⟩, c4⟩ := ih
        ⟨st.execution_futures ++ [st.execution_futures.length],
         dictSet st.execution_futures_dict s.key st.execution_futures.length⟩
        (prior ++ [s.key]) hp1 hdeps1
      rw [hunfold]
      refine ⟨fun k => c1 k, ?_, ⟨r3, by simp [hr3]⟩, ?_⟩
      · intro st' hok' k hk
        apply c2 st' hok'
        rcases hk with hk | hk
        · exact Or.inl (List.mem_append_left _ hk)
        · rw [List.map_cons] at hk
          rcases List.mem_cons.mp hk with hk | hk
          · exact Or.inl (List.mem_append_right _ (List.mem_singleton.mpr hk))
          · exact Or.inr hk
      · intro st' hok'
        simp only [List.map_cons, List.cons.injEq]
        exact ⟨trivial, c4 st' hok'⟩
    · have hunfold : submitSteps json_loads (s :: rest) st = ([], .error (.jsonError e)) := by
        simp [submitSteps, herr]
      rw [hunfold]
      exact ⟨fun k h => by simp at h, fun st' h => by simp at h,
        ⟨(s :: rest).map (fun s => Effect.submitted s.key), by simp⟩,
        fun st' h => by simp at h⟩

theorem submitLevels_sound (json_loads : String → Except String Json) :
    ∀ (levels : List (List Step)) (st : SubmitState) (prior : List String),
      (∀ k ∈ prior, hasKeyL st.execution_futures_dict k = true) →
      validLeveledFrom prior levels = true →
      (∀ k, (submitLevels json_loads levels st).2 ≠ .error (.keyError k)) ∧
      (∀ st', (submitLevels json_loads levels st).2 = .ok st' →
         ∀ k, k ∈ prior ∨ k ∈ (levels.map (fun lvl => lvl.map Step.key)).flatten →
           hasKeyL st'.execution_futures_dict k = true) ∧
      (∃ rest2, (submitLevels json_loads levels st).1 ++ rest2
          = ((levels.map (fun lvl => lvl.map Step.key)).flatten).map Effect.submitted) := by
  intro levels
  induction levels with
  | nil =>
    intro st prior hp _
    refine ⟨fun k => by simp [submitLevels], ?_, ⟨[], rfl⟩⟩
    intro st' hok k hk
    have hst : st' = st := by simpa [submitLevels] using hok.symm
    subst hst
    rcases hk with hk | hk
    · exact hp k hk
    · simp at hk
  | cons lvl rest ih =>
    intro st prior hp hv
    simp only [validLeveledFrom, Bool.and_eq_true] at hv
    have hv1 : ∀ s ∈ lvl, ∀ k ∈ s.dep_keys, k ∈ prior := by
      intro s hs k hk
      exact List.mem_of_elem_eq_true ((List.all_eq_true.mp ((List.all_eq_true.mp hv.1) s hs)) k hk)
    obtain ⟨a1, a2, ⟨r3a, h3a⟩, a4⟩ := submitSteps_sound json_loads lvl st prior hp hv1
    cases hres : (submitSteps json_loads lvl st).2 with
    | error e =>
      have hunfold : submitLevels json_loads (lvl :: rest) st
          = ((submitSteps json_loads lvl st).1, .error e) := by
        simp [submitLevels, hres]
      rw [hunfold]
      refine ⟨?_, fun st' h => by simp at h, ?_⟩
      · intro k hke
        rw [hres] at a1
        exact a1 k hke
      · refine ⟨r3a ++ ((rest.map (fun l => l.map Step.key)).flatten).map Effect.submitted, ?_⟩
        simp only [List.flatten_cons, List.map_append]
        rw [← List.append_assoc, h3a]
        simp [List.map_map, Function.comp]
    | ok st1 =>
      have hunfold : submitLevels json_loads (lvl :: rest) st
          = ((submitSteps json_loads lvl st).1 ++ (submitLevels json_loads rest st1).1,
             (submitLevels json_loads rest st1).2) := by
        simp [submitLevels, hres]
      have hp1 : ∀ k ∈ prior ++ lvl.map Step.key,
          hasKeyL st1.execution_futures_dict k = true := by
        intro k hk
        rcases List.mem_append.mp hk with hk | hk
        · exact a2 st1 hres k (Or.inl hk)
        · exact a2 st1 hres k (Or.inr hk)
      obtain ⟨b1, b2, ⟨r3b, h3b⟩⟩ := ih st1 (prior ++ lvl.map Step.key) hp1 hv.2
      rw [hunfold]
      refine ⟨fun k => b1 k, ?_, ?_⟩
      · intro st' hok k hk
        apply b2 st' hok
        rcases hk with hk | hk
        · exact Or.inl (List.mem_append_left _ hk)
        · simp only [List.map_cons, List.flatten_cons] at hk
          rcases List.mem_append.mp hk with hk | hk
          · exact Or.inl (List.mem_append_right _ hk)
          · exact Or.inr hk
      · refine ⟨r3b, ?_⟩
        simp only [List.map_cons, List.flatten_cons, List.map_append]
        rw [List.append_assoc, h3b, a4 st1 hres]
        simp [List.map_map, Function.comp]

/-- C1: for every valid leveled plan, the submission loop never fails a
dependency lookup (no KeyError is possible), and the futures are created
in plan level order: the submit trace is an initial segment of the step
keys in level order, the full list when submission completes. -/
theorem dask_submission_respects_level_order (plan : List (List Step))
    (json_loads : String → Except String Json)
    (hv : validLeveled plan = true) :
    (∀ k, (submitLevels json_loads plan ⟨[], []⟩).2 ≠ .error (.keyError k)) ∧
    (∃ rest2, (submitLevels json_loads plan ⟨[], []⟩).1 ++ rest2
        = (planKeys plan).map Effect.submitted) := by
  obtain ⟨c1, _, c3⟩ := submitLevels_sound json_loads plan ⟨[], []⟩ []
    (fun k hk => by simp at hk) hv
  exact ⟨c1, c3⟩

theorem dask_submission_respects_level_order_witness :
    (submitLevels (fun _ => Except.ok Json.null)
        [[⟨"A", [], []⟩], [⟨"C", [⟨["A"]⟩], []⟩]] ⟨[], []⟩).2
      ≠ Except.error (ExecError.keyError "A") :=
  (dask_submission_respects_level_order _ _ (by decide)).1 "A"

/-- The association list mapping the i-th of a list of keys to n + i:
the exact shape of execution_futures_dict after submitting those keys in
order starting from future handle n. -/
def dictOfFrom (n : Nat) : List String → List (String × Nat)
  | [] => []
  | k :: rest => (k, n) :: dictOfFrom (n + 1) rest

theorem hasKeyL_dictOfFrom (ks : List String) (k : String) :
    ∀ n : Nat, (hasKeyL (dictOfFrom n ks) k = true ↔ k ∈ ks) := by
  induction ks with
  | nil => intro n; simp [dictOfFrom, hasKeyL]
  | cons k0 rest ih =>
    intro n
    by_cases h : k0 = k
    · subst h
      simp [dictOfFrom, hasKeyL]
    · simp [dictOfFrom, hasKeyL, beq_false_of_ne h, Ne.symm h]
      simpa [hasKeyL] using ih (n + 1)

theorem dictOfFrom_append (xs : List String) (k : String) :
    ∀ n : Nat, dictOfFrom n (xs ++ [k]) = dictOfFrom n xs ++ [(k, n + xs.length)] := by
  induction xs with
  | nil => intro n; simp [dictOfFrom]
  | cons x xs ih =>
    intro n
    simp only [List.cons_append, dictOfFrom]
    rw [show xs.append [k] = xs ++ [k] from rfl, ih (n + 1)]
    simp
    omega

theorem map_fst_dictOfFrom (ks : List String) :
    ∀ n : Nat, (dictOfFrom n ks).map Prod.fst = ks := by
  induction ks with
  | nil => intro n; rfl
  | cons k0 rest ih => intro n; simp [dictOfFrom, ih (n + 1)]

theorem lookup_dictOfFrom :
    ∀ (ks : List String), ks.Nodup →
      ∀ (n i : Nat) (h : i < ks.length), (dictOfFrom n ks).lookup ks[i] = some (n + i) := by
  intro ks
  induction ks with
  | nil => intro _ n i h; simp at h
  | cons k0 rest ih =>
    intro hnd n i h
    cases i with
    | zero => simp [dictOfFrom, List.lookup_cons]
    | succ j =>
      have hj : j < rest.length := by simpa using h
      have hne : rest[j] ≠ k0 := by
        have hmem : rest[j] ∈ rest := List.getElem_mem hj
        have hk0 : k0 ∉ rest := (List.nodup_cons.mp hnd).1
        exact fun he => hk0 (he ▸ hmem)
      have hgoal : (dictOfFrom (n + 1) rest).lookup rest[j] = some (n + 1 + j) :=
        ih (List.nodup_cons.mp hnd).2 (n + 1) j hj
      simp only [List.getElem_cons_succ, dictOfFrom, List.lookup_cons,
        beq_false_of_ne hne]
      rw [hgoal]
      congr 1
      omega

theorem submitSteps_inv (json_loads : String → Except String Json) :
    ∀ (steps : List Step) (st : SubmitState) (done : List String) (st' : SubmitState),
      st.execution_futures_dict = dictOfFrom 0 done →
      st.execution_futures = List.range done.length →
      (done ++ steps.map Step.key).Nodup →
      (submitSteps json_loads steps st).2 = .ok st' →
      st'.execution_futures_dict = dictOfFrom 0 (done ++ steps.map Step.key) ∧
      st'.execution_futures = List.range (done ++ steps.map Step.key).length := by
  intro steps
  induction steps with
  | nil =>
    intro st done st' h1 h2 _ hok
    have hst : st' = st := by simpa [submitSteps] using hok.symm
    subst hst
    simp [h1, h2]
  | cons s rest ih =>
    intro st done st' h1 h2 hnd hok
    cases hone : submitOne json_loads st s with
    | error e =>
      rw [show (submitSteps json_loads (s :: rest) st).2 = .error e from by
        simp [submitSteps, hone]] at hok
      exact absurd hok (by simp)
    | ok st1 =>
      have hst1 := submitOne_ok json_loads st s st1 hone
      have hkey : s.key ∉ done := by
        have hd := (List.nodup_append.mp hnd).2.2
        exact fun hmem => hd hmem (by simp)
      have hlen : st.execution_futures.length = done.length := by
        rw [h2, List.length_range]
      have hdict1 : st1.execution_futures_dict = dictOfFrom 0 (done ++ [s.key]) := by
        rw [hst1]
        simp only
        rw [h1, hlen, dictSet_append_of_not_hasKey _ _ _ ?hnk, dictOfFrom_append]
        · simp
        case hnk =>
          cases hx : hasKeyL (dictOfFrom 0 done) s.key
          · rfl
          · exact absurd ((hasKeyL_dictOfFrom done s.key 0).mp hx) hkey
      have hfut1 : st1.execution_futures = List.range (done ++ [s.key]).length := by
        rw [hst1]
        simp only
        rw [h2]
        simp [List.length_range, List.length_append, List.range_succ]
      have hnd' : ((done ++ [s.key]) ++ rest.map Step.key).Nodup := by
        rw [List.append_assoc]
        simpa using hnd
      have hok' : (submitSteps json_loads rest st1).2 = .ok st' := by
        rw [show (submitSteps json_loads (s :: rest) st).2
            = (submitSteps json_loads rest st1).2 from by simp [submitSteps, hone]] at hok
        exact hok
      obtain ⟨d1, d2⟩ := ih st1 (done ++ [s.key]) st' hdict1 hfut1 hnd' hok'
      constructor
      · rw [d1, List.append_assoc]
        simp
      · rw [d2, List.append_assoc]
        simp

theorem submitLevels_inv (json_loads : String → Except String Json) :
    ∀ (levels : List (List Step)) (st : SubmitState) (done : List String) (st' : SubmitState),
      st.execution_futures_dict = dictOfFrom 0 done →
      st.execution_futures = List.range done.length →
      (done ++ (levels.map (fun lvl => lvl.map Step.key)).flatten).Nodup →
      (submitLevels json_loads levels st).2 = .ok st' →
      st'.execution_futures_dict
        = dictOfFrom 0 (done ++ (levels.map (fun lvl => lvl.map Step.key)).flatten) ∧
      st'.execution_futures
        = List.range (done ++ (levels.map (fun lvl => lvl.map Step.key)).flatten).length := by
  intro levels
  induction levels with
  | nil =>
    intro st done st' h1 h2 _ hok
    have hst : st' = st := by simpa [submitLevels] using hok.symm
    subst hst
    simp [h1, h2]
  | cons lvl rest ih =>
    intro st done st' h1 h2 hnd hok
    cases hres : (submitSteps json_loads lvl st).2 with
    | error e =>
      rw [show (submitLevels json_loads (lvl :: rest) st).2 = .error e from by
        simp [submitLevels, hres]] at hok
      exact absurd hok (by simp)
    | ok st1 =>
      have hnd1 : (done ++ lvl.map Step.key).Nodup := by
        simp only [List.map_cons, List.flatten_cons] at hnd
        rw [← List.append_assoc] at hnd
        exact (List.nodup_append.mp hnd).1
      obtain ⟨d1, d2⟩ := submitSteps_inv json_loads lvl st done st1 h1 h2 hnd1 hres
      have hnd' : ((done ++ lvl.map Step.key)
          ++ (rest.map (fun l => l.map Step.key)).flatten).Nodup := by
        simp only [List.map_cons, List.flatten_cons] at hnd
        rw [← List.append_assoc] at hnd
        exact hnd
      have hok' : (submitLevels json_loads rest st1).2 = .ok st' := by
        rw [show (submitLevels json_loads (lvl :: rest) st).2
            = (submitLevels json_loads rest st1).2 from by simp [submitLevels, hres]] at hok
        exact hok
      obtain ⟨e1, e2⟩ := ih st1 (done ++ lvl.map Step.key) st' d1 d2 hnd' hok'
      constructor
      · rw [e1]
        simp [List.append_assoc]
      · rw [e2]
        simp [List.append_assoc]

/-- C8: after a full submission pass over a valid plan with distinct step
keys, the submitted-futures dict binds exactly the plan's step keys,
each exactly once, the i-th step key (in submission order) to future
handle i, and the futures list is exactly the handles 0, 1, 2, ... in
creation order. -/
theorem dask_submitted_futures_map_complete (plan : List (List Step))
    (json_loads : String → Except String Json) (st : SubmitState)
    (_hv : validLeveled plan = true)
    (hnd : (planKeys plan).Nodup)
    (hok : (submitLevels json_loads plan ⟨[], []⟩).2 = .ok st) :
    st.execution_futures_dict = dictOfFrom 0 (planKeys plan) ∧
    st.execution_futures_dict.map Prod.fst = planKeys plan ∧
    (∀ k, k ∈ planKeys plan →
       (st.execution_futures_dict.map Prod.fst).count k = 1) ∧
    (∀ k, k ∉ planKeys plan →
       (st.execution_futures_dict.map Prod.fst).count k = 0) ∧
    (∀ (i : Nat) (h : i < (planKeys plan).length),
       st.execution_futures_dict.lookup (planKeys plan)[i] = some i) ∧
    st.execution_futures = List.range (planKeys plan).length := by
  have hinv := submitLevels_inv json_loads plan ⟨[], []⟩ [] st rfl rfl
    (by simpa [planKeys] using hnd) hok
  simp only [List.nil_append] at hinv
  obtain ⟨h1, h2⟩ := hinv
  have hdict : st.execution_futures_dict = dictOfFrom 0 (planKeys plan) := by
    rw [h1]; rfl
  have hfst : st.execution_futures_dict.map Prod.fst = planKeys plan := by
    rw [hdict, map_fst_dictOfFrom]
  refine ⟨hdict, hfst, ?_, ?_, ?_, by rw [h2]; rfl⟩
  · intro k hk
    rw [hfst]
    exact List.count_eq_one_of_mem hnd hk
  · intro k hk
    rw [hfst]
    exact List.count_eq_zero_of_not_mem hk
  · intro i h
    rw [hdict]
    have := lookup_dictOfFrom (planKeys plan) hnd 0 i h
    simpa using this

def planABC : List (List Step) :=
  [[⟨"A", [], []⟩, ⟨"B", [], []⟩], [⟨"C", [⟨["A"]⟩, ⟨["B"]⟩], []⟩]]

theorem dask_submitted_futures_map_complete_witness :
    (submitLevels (fun _ => Except.ok Json.null) planABC ⟨[], []⟩).2
        = Except.ok ⟨[0, 1, 2], [("A", 0), ("B", 1), ("C", 2)]⟩ ∧
    ([("A", 0), ("B", 1), ("C", 2)] : List (String × Nat)).lookup "C" = some 2 ∧
    (([("A", 0), ("B", 1), ("C", 2)] : List (String × Nat)).map Prod.fst).count "B" = 1 := by
  refine ⟨by rfl, ?_, ?_⟩
  · have h := dask_submitted_futures_map_complete planABC (fun _ => Except.ok Json.null)
      ⟨[0, 1, 2], [("A", 0), ("B", 1), ("C", 2)]⟩ (by decide) (by decide) (by rfl)
    have h2 := h.2.2.2.2.1 2 (by decide)
    exact h2
  · have h := dask_submitted_futures_map_complete planABC (fun _ => Except.ok Json.null)
      ⟨[0, 1, 2], [("A", 0), ("B", 1), ("C", 2)]⟩ (by decide) (by decide) (by rfl)
    have h3 := h.2.2.1 "B" (by decide)
    exact h3

/-! ## Resource requirements (C6) -/

/-- C6: get_dask_resource_requirements returns the empty mapping when the
resource tag is absent, exactly the decoded payload when present, and the
decoding error when the payload is malformed. -/
theorem dask_resource_requirements_spec (json_loads : String → Except String Json)
    (tags : List (String × String)) :
    (tags.lookup DASK_RESOURCE_REQUIREMENTS_KEY = none →
       get_dask_resource_requirements json_loads tags = .ok (Json.obj [])) ∧
    (∀ s, tags.lookup DASK_RESOURCE_REQUIREMENTS_KEY = some s →
       get_dask_resource_requirements json_loads tags = json_loads s) ∧
    (∀ s e, tags.lookup DASK_RESOURCE_REQUIREMENTS_KEY = some s → json_loads s = .error e →
       get_dask_resource_requirements json_loads tags = .error e) := by
  refine ⟨fun h => ?_, fun s h => ?_, fun s e h he => ?_⟩
  · simp [get_dask_resource_requirements, h]
  · simp [get_dask_resource_requirements, h]
  · simp [get_dask_resource_requirements, h, he]

theorem dask_resource_requirements_spec_witness :
    get_dask_resource_requirements (fun _ => Except.error "bad") [("other", "x")]
        = Except.ok (Json.obj []) ∧
    get_dask_resource_requirements (fun _ => Except.error "bad")
        [(DASK_RESOURCE_REQUIREMENTS_KEY, "not json")] = Except.error "bad" :=
  ⟨(dask_resource_requirements_spec (fun _ => Except.error "bad") [("other", "x")]).1 rfl,
   (dask_resource_requirements_spec (fun _ => Except.error "bad")
      [(DASK_RESOURCE_REQUIREMENTS_KEY, "not json")]).2.2 "not json" "bad" rfl rfl⟩

/-! ## Result aggregation (C2) -/

theorem drainFutures_all_ok (result : Nat → Except String (List Event)) :
    ∀ (pre rest : List Nat), (∀ g ∈ pre, ∃ evs, result g = .ok evs) →
      drainFutures (pre ++ rest) result
        = ((drainFutures pre result).1 ++ (drainFutures rest result).1,
           (drainFutures rest result).2) := by
  intro pre
  induction pre with
  | nil => intro rest _; simp [drainFutures]
  | cons g pre' ih =>
    intro rest h
    obtain ⟨evs, hg⟩ := h g (List.mem_cons_self g pre')
    have ih' := ih rest (fun g' hg' => h g' (List.mem_cons_of_mem _ hg'))
    simp [drainFutures, hg, ih']

theorem drainFutures_error_cons (result : Nat → Except String (List Event))
    (f : Nat) (post : List Nat) (e : String) (hf : result f = .error e) :
    drainFutures (f :: post) result = ([], some (.remoteFailure e)) := by
  simp [drainFutures, hf]

theorem execute_run (self : DaskExecutor) (ctx : ExecContext)
    (json_loads : String → Except String Json) (plan : List (List Step))
    (order : List Nat) (result : Nat → Except String (List Event)) (ss : List String)
    (hst : ctx.run_config_storage = some ss) (hss : ss.isEmpty = false)
    (hp : ctx.is_persistent = true) (hsp : ctx.system_storage_is_persistent = true)
    (hkind : clusterKinds.contains self.cluster_type = true) :
    self.execute ctx json_loads plan order result
      = self.executeBody ctx json_loads plan order result := by
  simp only [DaskExecutor.execute, hst]
  rw [hss, if_neg Bool.false_ne_true, hp]
  simp only [Bool.not_true]
  rw [if_neg Bool.false_ne_true, hsp]
  simp only [Bool.not_true]
  rw [if_neg Bool.false_ne_true, hkind, if_pos rfl]

theorem executeBody_ok (self : DaskExecutor) (ctx : ExecContext)
    (json_loads : String → Except String Json) (plan : List (List Step))
    (order : List Nat) (result : Nat → Except String (List Event)) (st : SubmitState)
    (hsub : (submitLevels json_loads plan ⟨[], []⟩).2 = .ok st) :
    self.executeBody ctx json_loads plan order result
      = (Effect.provision self.cluster_type (self.build_dict ctx.pipeline_name) ::
          Effect.acquireClient ::
          ((submitLevels json_loads plan ⟨[], []⟩).1 ++ [Effect.releaseClient]),
         (drainFutures order result).1, (drainFutures order result).2) := by
  simp [DaskExecutor.executeBody, hsub]

/-- C2: when a future fails while execute drains the completion-order
stream, the events yielded are exactly those of the futures completed
before the failing one, the failure propagates as the run error, and the
futures after the failing one are never awaited: the outcome is the same
as if they were not in the stream at all. -/
theorem dask_drain_stops_on_failure (self : DaskExecutor) (ctx : ExecContext)
    (json_loads : String → Except String Json) (plan : List (List Step))
    (st : SubmitState) (pre post : List Nat) (f : Nat) (e : String)
    (result : Nat → Except String (List Event)) (ss : List String)
    (hst : ctx.run_config_storage = some ss) (hss : ss.isEmpty = false)
    (hp : ctx.is_persistent = true) (hsp : ctx.system_storage_is_persistent = true)
    (hkind : clusterKinds.contains self.cluster_type = true)
    (hsub : (submitLevels json_loads plan ⟨[], []⟩).2 = .ok st)
    (_hperm : (pre ++ f :: post).Perm st.execution_futures)
    (hpre : ∀ g ∈ pre, ∃ evs, result g = .ok evs)
    (hf : result f = .error e) :
    (self.execute ctx json_loads plan (pre ++ f :: post) result).2.1
        = (drainFutures pre result).1 ∧
    (self.execute ctx json_loads plan (pre ++ f :: post) result).2.2
        = some (.remoteFailure e) ∧
    self.execute ctx json_loads plan (pre ++ f :: post) result
        = self.execute ctx json_loads plan (pre ++ [f]) result := by
  have hd1 : drainFutures (pre ++ f :: post) result
      = ((drainFutures pre result).1, some (.remoteFailure e)) := by
    rw [drainFutures_all_ok result pre (f :: post) hpre,
      drainFutures_error_cons result f post e hf]
    simp
  have hd2 : drainFutures (pre ++ [f]) result
      = ((drainFutures pre result).1, some (.remoteFailure e)) := by
    rw [drainFutures_all_ok result pre [f] hpre,
      drainFutures_error_cons result f [] e hf]
    simp
  rw [execute_run self ctx json_loads plan (pre ++ f :: post) result ss hst hss hp hsp hkind,
    execute_run self ctx json_loads plan (pre ++ [f]) result ss hst hss hp hsp hkind,
    executeBody_ok self ctx json_loads plan (pre ++ f :: post) result st hsub,
    executeBody_ok self ctx json_loads plan (pre ++ [f]) result st hsub,
    hd1, hd2]
  exact ⟨rfl, rfl, rfl⟩

theorem dask_drain_stops_on_failure_witness :
    ((⟨"local", []⟩ : DaskExecutor).execute ⟨some ["filesystem"], true, true, "p"⟩
        (fun _ => Except.ok Json.null) [[⟨"A", [], []⟩]] [0]
        (fun _ => Except.error "boom")).2.2
      = some (ExecError.remoteFailure "boom") :=
  (dask_drain_stops_on_failure ⟨"local", []⟩ ⟨some ["filesystem"], true, true, "p"⟩
    (fun _ => Except.ok Json.null) [[⟨"A", [], []⟩]] ⟨[0], [("A", 0)]⟩
    [] [] 0 "boom" (fun _ => Except.error "boom") ["filesystem"]
    rfl rfl rfl rfl rfl rfl (by decide) (fun g hg => absurd hg (List.not_mem_nil g)) rfl).2.1

/-! ## Precondition and error-path claims -/

/-- C5: an empty storage dict, a non-persistent instance or a
non-persistent system storage makes execute fail with a check.invariant
error, with an empty effect trace: nothing is provisioned, no client is
opened and no step is submitted. -/
theorem dask_storage_preconditions_fail_fast (self : DaskExecutor) (ctx : ExecContext)
    (json_loads : String → Except String Json) (plan : List (List Step))
    (order : List Nat) (result : Nat → Except String (List Event)) (ss : List String)
    (hst : ctx.run_config_storage = some ss)
    (h : ss = [] ∨ ctx.is_persistent = false ∨ ctx.system_storage_is_persistent = false) :
    ∃ msg, self.execute ctx json_loads plan order result
      = ([], [], some (.checkFailed msg)) := by
  simp only [DaskExecutor.execute, hst]
  by_cases hE : ss.isEmpty = true
  · exact ⟨"Must specify storage to use Dask execution", by rw [if_pos hE]⟩
  · have hE' : ss.isEmpty = false := by simpa using hE
    rcases h with h | h | h
    · exact absurd (by simp [h]) hE
    · refine ⟨"Dask execution requires a persistent DagsterInstance", ?_⟩
      rw [if_neg hE, h]
      simp only [Bool.not_false]
      rw [if_pos trivial]
    · by_cases hq : ctx.is_persistent = true
      · refine ⟨"Cannot use in-memory storage with Dask, use filesystem, S3, or GCS", ?_⟩
        rw [if_neg hE, hq]
        simp only [Bool.not_true]
        rw [if_neg Bool.false_ne_true, h]
        simp only [Bool.not_false]
        rw [if_pos trivial]
      · have hq' : ctx.is_persistent = false := by simpa using hq
        refine ⟨"Dask execution requires a persistent DagsterInstance", ?_⟩
        rw [if_neg hE, hq']
        simp only [Bool.not_false]
        rw [if_pos trivial]

theorem dask_storage_preconditions_fail_fast_witness :
    ((⟨"local", []⟩ : DaskExecutor).execute ⟨some [], true, true, "p"⟩
        (fun _ => Except.ok Json.null) [] [] (fun _ => Except.ok [])).1 = [] ∧
    ((⟨"local", []⟩ : DaskExecutor).execute ⟨some [], true, true, "p"⟩
        (fun _ => Except.ok Json.null) [] [] (fun _ => Except.ok [])).2.2 ≠ none := by
  obtain ⟨msg, hmsg⟩ := dask_storage_preconditions_fail_fast ⟨"local", []⟩
    ⟨some [], true, true, "p"⟩ (fun _ => Except.ok Json.null) [] []
    (fun _ => Except.ok []) [] rfl (Or.inl rfl)
  rw [hmsg]
  exact ⟨rfl, by simp⟩

/-- C7: an unrecognized cluster kind leaves the effect trace with no
provisioning and no submission on every path; when the storage and
persistence checks pass, the error raised is exactly the ValueError of
the kind dispatch. -/
theorem dask_unknown_cluster_kind_rejected (self : DaskExecutor)
    (hkind : clusterKinds.contains self.cluster_type = false) :
    ∀ (ctx : ExecContext) (json_loads : String → Except String Json)
      (plan : List (List Step)) (order : List Nat)
      (result : Nat → Except String (List Event)),
      (∀ kind cfg, Effect.provision kind cfg
          ∉ (self.execute ctx json_loads plan order result).1) ∧
      (∀ k, Effect.submitted k ∉ (self.execute ctx json_loads plan order result).1) ∧
      (∀ ss, ctx.run_config_storage = some ss → ss.isEmpty = false →
         ctx.is_persistent = true → ctx.system_storage_is_persistent = true →
         self.execute ctx json_loads plan order result
           = ([], [], some (.valueError
               ("Must be providing one of the following (local, yarn, ssh, pbs, kube) not "
                 ++ self.cluster_type)))) := by
  intro ctx json_loads plan order result
  have htr : (self.execute ctx json_loads plan order result).1 = [] := by
    unfold DaskExecutor.execute
    cases hst : ctx.run_config_storage with
    | none => rfl
    | some ss =>
      dsimp only
      by_cases hE : ss.isEmpty = true
      · rw [if_pos hE]
      · rw [if_neg hE]
        cases hq : ctx.is_persistent with
        | false =>
          simp only [Bool.not_false]
          rw [if_pos trivial]
        | true =>
          simp only [Bool.not_true]
          rw [if_neg Bool.false_ne_true]
          cases hr : ctx.system_storage_is_persistent with
          | false =>
            simp only [Bool.not_false]
            rw [if_pos trivial]
          | true =>
            simp only [Bool.not_true]
            rw [if_neg Bool.false_ne_true, hkind, if_neg Bool.false_ne_true]
  refine ⟨fun kind cfg hmem => by rw [htr] at hmem; simp at hmem,
    fun k hmem => by rw [htr] at hmem; simp at hmem, ?_⟩
  intro ss hst hss hp hsp
  simp only [DaskExecutor.execute, hst]
  rw [hss, if_neg Bool.false_ne_true, hp]
  simp only [Bool.not_true]
  rw [if_neg Bool.false_ne_true, hsp]
  simp only [Bool.not_true]
  rw [if_neg Bool.false_ne_true, hkind, if_neg Bool.false_ne_true]

theorem dask_unknown_cluster_kind_rejected_witness :
    (Effect.provision "local" []
        ∉ ((⟨"foo", []⟩ : DaskExecutor).execute ⟨some ["s"], true, true, "p"⟩
            (fun _ => Except.ok Json.null) [] [] (fun _ => Except.ok [])).1) ∧
    ((⟨"foo", []⟩ : DaskExecutor).execute ⟨some ["s"], true, true, "p"⟩
        (fun _ => Except.ok Json.null) [] [] (fun _ => Except.ok []))
      = ([], [], some (.valueError
          ("Must be providing one of the following (local, yarn, ssh, pbs, kube) not "
            ++ "foo"))) := by
  have h := dask_unknown_cluster_kind_rejected ⟨"foo", []⟩ (by rfl)
    ⟨some ["s"], true, true, "p"⟩ (fun _ => Except.ok Json.null) [] []
    (fun _ => Except.ok [])
  exact ⟨h.1 "local" [], h.2.2 ["s"] rfl rfl rfl rfl⟩

theorem executeBody_trace (self : DaskExecutor) (ctx : ExecContext)
    (json_loads : String → Except String Json) (plan : List (List Step))
    (order : List Nat) (result : Nat → Except String (List Event)) :
    (self.executeBody ctx json_loads plan order result).1
      = Effect.provision self.cluster_type (self.build_dict ctx.pipeline_name) ::
        Effect.acquireClient ::
        ((submitLevels json_loads plan ⟨[], []⟩).1 ++ [Effect.releaseClient]) := by
  unfold DaskExecutor.executeBody
  cases h : (submitLevels json_loads plan ⟨[], []⟩).2 with
  | error e => simp [h]
  | ok st => simp [h]

theorem submitSteps_trace_submitted (json_loads : String → Except String Json) :
    ∀ (steps : List Step) (st : SubmitState),
      ∀ eff ∈ (submitSteps json_loads steps st).1, ∃ k, eff = Effect.submitted k := by
  intro steps
  induction steps with
  | nil => intro st eff heff; simp [submitSteps] at heff
  | cons s rest ih =>
    intro st eff heff
    cases hone : submitOne json_loads st s with
    | error e =>
      rw [show (submitSteps json_loads (s :: rest) st).1 = [] from by
        simp [submitSteps, hone]] at heff
      simp at heff
    | ok st1 =>
      rw [show (submitSteps json_loads (s :: rest) st).1
          = Effect.submitted s.key :: (submitSteps json_loads rest st1).1 from by
        simp [submitSteps, hone]] at heff
      rcases List.mem_cons.mp heff with h | h
      · exact ⟨s.key, h⟩
      · exact ih st1 eff h

theorem submitLevels_trace_submitted (json_loads : String → Except String Json) :
    ∀ (levels : List (List Step)) (st : SubmitState),
      ∀ eff ∈ (submitLevels json_loads levels st).1, ∃ k, eff = Effect.submitted k := by
  intro levels
  induction levels with
  | nil => intro st eff heff; simp [submitLevels] at heff
  | cons lvl rest ih =>
    intro st eff heff
    cases hres : (submitSteps json_loads lvl st).2 with
    | error e =>
      rw [show (submitLevels json_loads (lvl :: rest) st).1
          = (submitSteps json_loads lvl st).1 from by simp [submitLevels, hres]] at heff
      exact submitSteps_trace_submitted json_loads lvl st eff heff
    | ok st1 =>
      rw [show (submitLevels json_loads (lvl :: rest) st).1
          = (submitSteps json_loads lvl st).1 ++ (submitLevels json_loads rest st1).1 from by
        simp [submitLevels, hres]] at heff
      rcases List.mem_append.mp heff with h | h
      · exact submitSteps_trace_submitted json_loads lvl st eff h
      · exact ih st1 eff h

/-- C9: on every execution the client context is entered exactly as often
as it is left (at most once), and whenever a cluster is provisioned the
client is acquired exactly once and released exactly once, whatever the
submission and drain outcomes. -/
theorem dask_cluster_handle_scoped (self : DaskExecutor) (ctx : ExecContext)
    (json_loads : String → Except String Json) (plan : List (List Step))
    (order : List Nat) (result : Nat → Except String (List Event)) :
    ((self.execute ctx json_loads plan order result).1.count Effect.acquireClient
       = (self.execute ctx json_loads plan order result).1.count Effect.releaseClient) ∧
    (self.execute ctx json_loads plan order result).1.count Effect.acquireClient ≤ 1 ∧
    ((∃ kind cfg, Effect.provision kind cfg
        ∈ (self.execute ctx json_loads plan order result).1) →
      (self.execute ctx json_loads plan order result).1.count Effect.acquireClient = 1 ∧
      (self.execute ctx json_loads plan order result).1.count Effect.releaseClient = 1) := by
  have hdi : (self.execute ctx json_loads plan order result).1 = [] ∨
      (self.execute ctx json_loads plan order result).1
        = Effect.provision self.cluster_type (self.build_dict ctx.pipeline_name) ::
          Effect.acquireClient ::
          ((submitLevels json_loads plan ⟨[], []⟩).1 ++ [Effect.releaseClient]) := by
    unfold DaskExecutor.execute
    cases hst : ctx.run_config_storage with
    | none => exact Or.inl rfl
    | some ss =>
      dsimp only
      by_cases hE : ss.isEmpty = true
      · rw [if_pos hE]
        exact Or.inl rfl
      · rw [if_neg hE]
        cases hq : ctx.is_persistent with
        | false =>
          simp only [Bool.not_false]
          rw [if_pos trivial]
          exact Or.inl rfl
        | true =>
          simp only [Bool.not_true]
          rw [if_neg Bool.false_ne_true]
          cases hr : ctx.system_storage_is_persistent with
          | false =>
            simp only [Bool.not_false]
            rw [if_pos trivial]
            exact Or.inl rfl
          | true =>
            simp only [Bool.not_true]
            rw [if_neg Bool.false_ne_true]
            by_cases hk : clusterKinds.contains self.cluster_type = true
            · rw [hk, if_pos rfl]
              exact Or.inr (executeBody_trace self ctx json_loads plan order result)
            · have hk' : clusterKinds.contains self.cluster_type = false := by simpa using hk
              rw [hk', if_neg Bool.false_ne_true]
              exact Or.inl rfl
  have hsubA : Effect.acquireClient ∉ (submitLevels json_loads plan ⟨[], []⟩).1 := by
    intro hmem
    obtain ⟨k, hk⟩ := submitLevels_trace_submitted json_loads plan ⟨[], []⟩ _ hmem
    simp at hk
  have hsubR : Effect.releaseClient ∉ (submitLevels json_loads plan ⟨[], []⟩).1 := by
    intro hmem
    obtain ⟨k, hk⟩ := submitLevels_trace_submitted json_loads plan ⟨[], []⟩ _ hmem
    simp at hk
  rcases hdi with h | h
  · rw [h]
    refine ⟨rfl, by simp, ?_⟩
    rintro ⟨kind, cfg, hmem⟩
    simp at hmem
  · rw [h]
    have hca : (Effect.provision self.cluster_type (self.build_dict ctx.pipeline_name) ::
        Effect.acquireClient ::
        ((submitLevels json_loads plan ⟨[], []⟩).1 ++ [Effect.releaseClient])).count
          Effect.acquireClient = 1 := by
      simp [List.count_cons, List.count_append, List.count_eq_zero.mpr hsubA]
    have hcr : (Effect.provision self.cluster_type (self.build_dict ctx.pipeline_name) ::
        Effect.acquireClient ::
        ((submitLevels json_loads plan ⟨[], []⟩).1 ++ [Effect.releaseClient])).count
          Effect.releaseClient = 1 := by
      simp [List.count_cons, List.count_append, List.count_eq_zero.mpr hsubR]
    exact ⟨by rw [hca, hcr], by rw [hca], fun _ => ⟨hca, hcr⟩⟩

theorem dask_cluster_handle_scoped_witness :
    (((⟨"local", []⟩ : DaskExecutor).execute ⟨some ["s"], true, true, "p"⟩
        (fun _ => Except.ok Json.null) [[⟨"A", [], []⟩]] [0]
        (fun _ => Except.error "boom")).1.count Effect.acquireClient = 1) ∧
    (((⟨"local", []⟩ : DaskExecutor).execute ⟨some ["s"], true, true, "p"⟩
        (fun _ => Except.ok Json.null) [[⟨"A", [], []⟩]] [0]
        (fun _ => Except.error "boom")).1.count Effect.releaseClient = 1) := by
  have h := dask_cluster_handle_scoped ⟨"local", []⟩ ⟨some ["s"], true, true, "p"⟩
    (fun _ => Except.ok Json.null) [[⟨"A", [], []⟩]] [0] (fun _ => Except.error "boom")
  exact h.2.2 ⟨"local", [("threads_per_worker", PyVal.int 1)], by decide⟩

/-- C10: DaskExecutor constructed with no cluster type and no cluster
configuration defaults to a local cluster with empty options, whose
build_dict output is exactly the single-worker-thread constraint, and any
execution that passes the preconditions provisions a local cluster with
exactly that configuration. -/
theorem dask_default_executor_local :
    DaskExecutor.construct none none = ⟨"local", []⟩ ∧
    (∀ pipeline_name, (DaskExecutor.construct none none).build_dict pipeline_name
        = [("threads_per_worker", PyVal.int 1)]) ∧
    (∀ (ctx : ExecContext) (json_loads : String → Except String Json)
       (plan : List (List Step)) (order : List Nat)
       (result : Nat → Except String (List Event)) (ss : List String),
       ctx.run_config_storage = some ss → ss.isEmpty = false →
       ctx.is_persistent = true → ctx.system_storage_is_persistent = true →
       Effect.provision "local" [("threads_per_worker", PyVal.int 1)]
         ∈ ((DaskExecutor.construct none none).execute ctx json_loads plan order result).1) := by
  refine ⟨rfl, fun pipeline_name => rfl, ?_⟩
  intro ctx json_loads plan order result ss hst hss hp hsp
  rw [execute_run _ ctx json_loads plan order result ss hst hss hp hsp (by rfl),
    executeBody_trace]
  exact List.mem_cons_self _ _

theorem dask_default_executor_local_witness :
    Effect.provision "local" [("threads_per_worker", PyVal.int 1)]
      ∈ ((DaskExecutor.construct none none).execute ⟨some ["s"], true, true, "p"⟩
          (fun _ => Except.ok Json.null) [] [] (fun _ => Except.ok [])).1 :=
  dask_default_executor_local.2.2 ⟨some ["s"], true, true, "p"⟩
    (fun _ => Except.ok Json.null) [] [] (fun _ => Except.ok []) ["s"] rfl rfl rfl rfl
